import Mathlib

/-!
Shallow embedding of the MicToMorseCode decoder (src/mic-to-morse.ts).

Strings are modelled as lists of characters, timestamps as exact rationals.
The mutable fields of the MicToMorseCode class that the decoding logic
touches become the fields of MicState; each method that mutates the object
or emits events becomes a function from the state to a new state paired
with the list of events it emitted, in emission order.  The microphone /
Tone.js plumbing (startMicrophone, stopMicrophone, onMicTime's meter) is
out of scope; onMicTime's dispatch on the threshold comparison is modelled
by onSample taking the boolean outcome of that comparison.
-/

attribute [local semireducible] Rat.add Rat.sub Rat.mul Rat.inv

set_option maxRecDepth 10000

namespace MicToMorse

/-- ListeningState of the source: the private field lastState, either
'no-sound' or 'sound'. -/
inductive ListeningState
  | noSound
  | sound
deriving DecidableEq

/-- AudioState of the source: the externally observable status values. -/
inductive AudioState
  | notListening
  | listeningNoSound
  | listeningSound
  | dotLength
  | dashLength
  | characterDelimiterLength
  | wordDelimiterLength
deriving DecidableEq

/-- Events emitted through the events table: on:audio:state:change,
on:change, on:character:end and on:word:end, with the arguments the source
passes to the registered callbacks. -/
inductive Event
  | audioStateChange (current previous : AudioState)
  | sentenceChange (current previous : List Char)
  | characterEnd (character : List Char)
  | wordEnd (word : List Char)
deriving DecidableEq

/-- The timing configuration fields of MicToMorseCode (threshold and
audioTimeResolution only matter to the out-of-scope sampling plumbing). -/
structure Config where
  dotTime : ℚ
  dashTime : ℚ
  characterTime : ℚ
  wordTime : ℚ
  debounceTime : ℚ
deriving DecidableEq

/-- The constructor defaults: dotTime 0.5, dashTime dotTime*3,
characterTime dotTime*4, wordTime dotTime*6, debounceTime dotTime/2. -/
def defaultConfig : Config :=
  { dotTime := 1/2, dashTime := 3/2, characterTime := 2, wordTime := 3
    debounceTime := 1/4 }

/-- The private field characterDelimiter, initialised to a space and never
reassigned. -/
def characterDelimiter : Char := ' '

/-- The private field wordDelimiter, initialised to '/' and never
reassigned. -/
def wordDelimiter : Char := '/'

/-- The mutable decoder state: currentAudioState, lastState,
soundStartTime, soundStopTime and morseSentence. -/
structure MicState where
  currentAudioState : AudioState
  lastState : ListeningState
  soundStartTime : ℚ
  soundStopTime : ℚ
  morseSentence : List Char
deriving DecidableEq

/-- Field initialisers of a freshly constructed MicToMorseCode:
currentAudioState 'not-listening', lastState 'no-sound', both timestamps 0
and the empty sentence. -/
def initState : MicState :=
  { currentAudioState := .notListening, lastState := .noSound
    soundStartTime := 0, soundStopTime := 0, morseSentence := [] }

/-- changeAudioState: returns without emitting when the requested state
equals the current one, otherwise stores it and emits
on:audio:state:change (current, previous). -/
def changeAudioState (st : MicState) (state : AudioState) : MicState × List Event :=
  if st.currentAudioState = state then (st, [])
  else ({ st with currentAudioState := state },
        [Event.audioStateChange state st.currentAudioState])

/-- Last element of a JavaScript split result (split of a string on a
single-character separator never yields an empty array, so the source's
falsy check on it is dead code; the default [] here is never reached). -/
def lastSegment (segments : List (List Char)) : List Char :=
  segments.getLastD []

/-- emitCharacterEndEvent: splits the sentence on the character delimiter
and emits the last element. -/
def emitCharacterEndEvent (st : MicState) : List Event :=
  [Event.characterEnd (lastSegment (st.morseSentence.splitOn characterDelimiter))]

/-- emitWordEndEvent: splits the sentence on the word delimiter and emits
the last element. -/
def emitWordEndEvent (st : MicState) : List Event :=
  [Event.wordEnd (lastSegment (st.morseSentence.splitOn wordDelimiter))]

/-- addCharacter: appends the character to the sentence, then emits the
word-end event when it is the word delimiter, the character-end event when
it is the character delimiter, and finally on:change (current, previous). -/
def addCharacter (st : MicState) (character : Char) : MicState × List Event :=
  let previous := st.morseSentence
  let st' := { st with morseSentence := previous ++ [character] }
  let wordEvents := if character = wordDelimiter then emitWordEndEvent st' else []
  let charEvents := if character = characterDelimiter then emitCharacterEndEvent st' else []
  (st', wordEvents ++ charEvents ++ [Event.sentenceChange st'.morseSentence previous])

/-- wasSound: lastState === 'sound'. -/
abbrev wasSound (st : MicState) : Prop := st.lastState = ListeningState.sound

/-- wasNoSound: lastState === 'no-sound'. -/
abbrev wasNoSound (st : MicState) : Prop := st.lastState = ListeningState.noSound

/-- isDelimiter: the character is the word delimiter or the character
delimiter. -/
def isDelimiter (character : Char) : Bool :=
  character == wordDelimiter || character == characterDelimiter

/-- removeLastLetterFromMorse: morseSentence.replace of the regular
expression matching the final character by the empty string, i.e. dropping
the last character of the sentence. -/
def removeLastLetterFromMorse (st : MicState) : MicState :=
  { st with morseSentence := st.morseSentence.dropLast }

/-- logStartTime: handles a sample whose level is above the threshold. -/
def logStartTime (cfg : Config) (st : MicState) (currentTime : ℚ) : MicState × List Event :=
  if currentTime - st.soundStopTime < cfg.debounceTime then (st, [])
  else if wasSound st then
    let onTime := currentTime - st.soundStartTime
    if onTime > cfg.dashTime then changeAudioState st .dashLength
    else if onTime > cfg.dotTime then changeAudioState st .dotLength
    else (st, [])
  else
    let r := changeAudioState st .listeningSound
    ({ r.fst with lastState := .sound, soundStartTime := currentTime }, r.snd)

/-- logEndTime: handles a sample whose level is at or below the threshold.
The source reads lastCharacter as morseSentence[length-1], which is
undefined on the empty string; the Option models that, with none comparing
unequal to every character and isDelimiter(undefined) being false. -/
def logEndTime (cfg : Config) (st : MicState) (currentTime : ℚ) : MicState × List Event :=
  if currentTime - st.soundStartTime < cfg.debounceTime then (st, [])
  else
    let offTime := currentTime - st.soundStopTime
    let lastCharacter := st.morseSentence.getLast?
    if wasNoSound st ∧ offTime > cfg.wordTime then
      let r1 := changeAudioState st .wordDelimiterLength
      if r1.fst.morseSentence.length = 0 then r1
      else if lastCharacter = some wordDelimiter then r1
      else
        let st2 := if lastCharacter = some characterDelimiter
          then removeLastLetterFromMorse r1.fst else r1.fst
        let r3 := addCharacter st2 wordDelimiter
        (r3.fst, r1.snd ++ r3.snd)
    else if wasNoSound st ∧ offTime > cfg.characterTime then
      let r1 := changeAudioState st .characterDelimiterLength
      if r1.fst.morseSentence.length = 0 then r1
      else if lastCharacter.elim false isDelimiter then r1
      else
        let r2 := addCharacter r1.fst characterDelimiter
        (r2.fst, r1.snd ++ r2.snd)
    else if wasNoSound st then
      changeAudioState st .listeningNoSound
    else if wasSound st then
      let st1 := { st with soundStopTime := currentTime, lastState := ListeningState.noSound }
      let onTime := currentTime - st.soundStartTime
      if onTime > cfg.dashTime then addCharacter st1 '-'
      else if onTime > cfg.dotTime then addCharacter st1 '.'
      else (st1, [])
    else (st, [])

/-- clearSentence: resets the sentence to empty and emits on:change. -/
def clearSentence (st : MicState) : MicState × List Event :=
  let previous := st.morseSentence
  let st' := { st with morseSentence := [] }
  (st', [Event.sentenceChange st'.morseSentence previous])

/-- deleteCharacter as written in the source: it computes
morseSentence.split(characterDelimiter).pop() but discards the result, so
the sentence is left unchanged and on:change fires with current equal to
previous. -/
def deleteCharacter (st : MicState) : MicState × List Event :=
  let previous := st.morseSentence
  (st, [Event.sentenceChange st.morseSentence previous])

/-- deleteWord as written in the source: likewise discards the split
result, leaving the sentence unchanged. -/
def deleteWord (st : MicState) : MicState × List Event :=
  let previous := st.morseSentence
  (st, [Event.sentenceChange st.morseSentence previous])

/-- getMorseString: returns the sentence. -/
def getMorseString (st : MicState) : List Char := st.morseSentence

/-- One microphone sample: its timestamp (meter.now()) and the outcome of
the comparison meter.getValue() > threshold. -/
structure Sample where
  time : ℚ
  signalPresent : Bool
deriving DecidableEq

/-- The body of the interval callback built by onMicTime: logStartTime on
a sample above the threshold, logEndTime otherwise. -/
def onSample (cfg : Config) (st : MicState) (sample : Sample) : MicState × List Event :=
  if sample.signalPresent then logStartTime cfg st sample.time
  else logEndTime cfg st sample.time

/-- External operations that can reach the sentence: a delivered sample or
one of the public edit calls. -/
inductive Op
  | sample (s : Sample)
  | clear
  | deleteChar
  | deleteWrd

/-- applyOp: dispatches one external operation. -/
def applyOp (cfg : Config) (st : MicState) : Op → MicState × List Event
  | .sample s => onSample cfg st s
  | .clear => clearSentence st
  | .deleteChar => deleteCharacter st
  | .deleteWrd => deleteWord st

/-- runOps: processes a list of operations in order, accumulating the
emitted events. -/
def runOps (cfg : Config) (st : MicState) : List Op → MicState × List Event
  | [] => (st, [])
  | op :: rest =>
    let r1 := applyOp cfg st op
    let r2 := runOps cfg r1.fst rest
    (r2.fst, r1.snd ++ r2.snd)

/-- run: processes a list of samples in order. -/
def run (cfg : Config) (st : MicState) (samples : List Sample) : MicState × List Event :=
  runOps cfg st (samples.map Op.sample)

/-! Well-formedness predicates and example inputs used by the theorems
below. -/

/-- A character is one of the two Morse symbols. -/
abbrev morseSymbol (c : Char) : Prop := c = '.' ∨ c = '-'

/-- A character is one of the two delimiters. -/
abbrev delimiterChar (c : Char) : Prop := c = characterDelimiter ∨ c = wordDelimiter

/-- Adjacency constraint: a delimiter is immediately preceded by a Morse
symbol. -/
abbrev delimiterGuard (a b : Char) : Prop := delimiterChar b → morseSymbol a

/-- Invariant of every sentence the decoder can build: only the four
symbol characters occur, the sentence does not start with a delimiter,
and every delimiter is immediately preceded by a dot or a dash. -/
def validMorse (s : List Char) : Prop :=
  (∀ c ∈ s, morseSymbol c ∨ delimiterChar c) ∧
  (∀ c ∈ s.head?, morseSymbol c) ∧
  List.Chain' delimiterGuard s

/-- Every audio-state-change event in the list carries a current state
different from its previous state. -/
def audioEventsDistinct (events : List Event) : Prop :=
  ∀ c p, Event.audioStateChange c p ∈ events → c ≠ p

/-- The configuration of the specification's worked example: dotTime 0.5,
dashTime 1.5, characterGapTime 2.0, wordGapTime 3.0, debounceTime 0.25. -/
def exampleConfig : Config :=
  { dotTime := 1/2, dashTime := 3/2, characterTime := 2, wordTime := 3
    debounceTime := 1/4 }

/-- The worked example's samples, discretised at one sample every 0.1 time
units: presence from t = 0 through t = 0.5, silence from t = 0.6 through
t = 2.5. -/
def exampleTrace : List Sample :=
  (List.range 6).map (fun i => { time := (i : ℚ) / 10, signalPresent := true }) ++
  (List.range 20).map (fun i => { time := ((6 + i : ℕ) : ℚ) / 10, signalPresent := false })

/-- Bool discriminator for character-end events. -/
def isCharacterEndEvent : Event → Bool
  | .characterEnd _ => true
  | _ => false

/-- State reached after a tone from t = 1 to t = 2 with the default
configuration: sentence ".", soundStopTime 2, silent again. -/
def outOfOrderSetup : MicState :=
  (run defaultConfig initState
    [{ time := 1, signalPresent := true }, { time := 2, signalPresent := false }]).fst

/-! Basic facts about the state-mutating helpers. -/

theorem changeAudioState_fst_morseSentence (st : MicState) (a : AudioState) :
    (changeAudioState st a).fst.morseSentence = st.morseSentence := by
  unfold changeAudioState; split <;> rfl

theorem changeAudioState_fst_lastState (st : MicState) (a : AudioState) :
    (changeAudioState st a).fst.lastState = st.lastState := by
  unfold changeAudioState; split <;> rfl

theorem changeAudioState_fst_soundStartTime (st : MicState) (a : AudioState) :
    (changeAudioState st a).fst.soundStartTime = st.soundStartTime := by
  unfold changeAudioState; split <;> rfl

theorem changeAudioState_fst_soundStopTime (st : MicState) (a : AudioState) :
    (changeAudioState st a).fst.soundStopTime = st.soundStopTime := by
  unfold changeAudioState; split <;> rfl

theorem addCharacter_fst (st : MicState) (c : Char) :
    (addCharacter st c).fst = { st with morseSentence := st.morseSentence ++ [c] } := rfl

/-! Well-formedness of reachable sentences. -/

theorem symbol_not_delimiter {c : Char} (h : morseSymbol c) : ¬ delimiterChar c := by
  rcases h with rfl | rfl <;> rintro (h | h) <;> exact absurd h (by decide)

theorem validMorse_nil : validMorse [] := by
  refine ⟨?_, ?_, ?_⟩ <;> simp

theorem validMorse_append_symbol (s : List Char) (c : Char)
    (h : validMorse s) (hc : morseSymbol c) : validMorse (s ++ [c]) := by
  obtain ⟨halpha, hhead, hchain⟩ := h
  refine ⟨?_, ?_, ?_⟩
  · intro x hx
    rcases List.mem_append.mp hx with hx | hx
    · exact halpha x hx
    · rw [List.mem_singleton.mp hx]; exact Or.inl hc
  · cases s with
    | nil =>
      intro x hx
      rw [Option.mem_def] at hx
      obtain rfl : x = c := (Option.some_inj.mp hx).symm
      exact hc
    | cons a s' => intro x hx; exact hhead x hx
  · refine List.chain'_append.mpr ⟨hchain, List.chain'_singleton c, ?_⟩
    intro x _ y hy
    rw [Option.mem_def] at hy
    obtain rfl : y = c := (Option.some_inj.mp hy).symm
    exact fun hdel => absurd hdel (symbol_not_delimiter hc)

theorem validMorse_append_delimiter (s : List Char) (a d : Char)
    (h : validMorse s) (hlast : s.getLast? = some a) (ha : morseSymbol a)
    (hd : delimiterChar d) : validMorse (s ++ [d]) := by
  obtain ⟨halpha, hhead, hchain⟩ := h
  have hne : s ≠ [] := by
    intro h0; rw [h0] at hlast; exact Option.noConfusion hlast
  refine ⟨?_, ?_, ?_⟩
  · intro x hx
    rcases List.mem_append.mp hx with hx | hx
    · exact halpha x hx
    · rw [List.mem_singleton.mp hx]; exact Or.inr hd
  · cases s with
    | nil => exact absurd rfl hne
    | cons b s' => intro x hx; exact hhead x hx
  · refine List.chain'_append.mpr ⟨hchain, List.chain'_singleton d, ?_⟩
    intro x hx y hy
    rw [Option.mem_def] at hx hy
    obtain rfl : x = a := by rw [hlast] at hx; exact (Option.some_inj.mp hx).symm
    obtain rfl : y = d := (Option.some_inj.mp hy).symm
    exact fun _ => ha

theorem validMorse_upgrade (s : List Char) (d d' : Char)
    (h : validMorse (s ++ [d])) (hd : delimiterChar d) (hd' : delimiterChar d') :
    validMorse (s ++ [d']) := by
  obtain ⟨halpha, hhead, hchain⟩ := h
  obtain ⟨hchain₁, _, hbridge⟩ := List.chain'_append.mp hchain
  cases s with
  | nil =>
    exfalso
    have := hhead d (by rw [Option.mem_def]; rfl)
    exact symbol_not_delimiter this hd
  | cons b s' =>
    refine ⟨?_, ?_, ?_⟩
    · intro x hx
      rcases List.mem_append.mp hx with hx | hx
      · exact halpha x (List.mem_append.mpr (Or.inl hx))
      · rw [List.mem_singleton.mp hx]; exact Or.inr hd'
    · intro x hx
      exact hhead x hx
    · refine List.chain'_append.mpr ⟨hchain₁, List.chain'_singleton d', ?_⟩
      intro x hx y hy
      rw [Option.mem_def] at hy
      obtain rfl : y = d' := (Option.some_inj.mp hy).symm
      intro _
      exact hbridge x hx d (by rw [Option.mem_def]; rfl) hd

theorem addCharacter_fst_morseSentence (st : MicState) (c : Char) :
    (addCharacter st c).fst.morseSentence = st.morseSentence ++ [c] := rfl

theorem removeLastLetterFromMorse_morseSentence (st : MicState) :
    (removeLastLetterFromMorse st).morseSentence = st.morseSentence.dropLast := rfl

theorem sentence_decomp_of_getLast (s : List Char) (c : Char) (h : s.getLast? = some c) :
    s = s.dropLast ++ [c] := by
  have hne : s ≠ [] := by intro h0; rw [h0] at h; exact Option.noConfusion h
  have h1 := List.dropLast_append_getLast hne
  have h2 : s.getLast hne = c := by
    rw [List.getLast?_eq_getLast s hne] at h
    exact Option.some_inj.mp h
  conv_lhs => rw [← h1]
  rw [h2]

theorem mem_of_getLast?_eq (s : List Char) (a : Char) (h : s.getLast? = some a) : a ∈ s := by
  rw [sentence_decomp_of_getLast s a h]
  exact List.mem_append.mpr (Or.inr (List.mem_singleton.mpr rfl))

theorem logStartTime_fst_morseSentence (cfg : Config) (st : MicState) (t : ℚ) :
    (logStartTime cfg st t).fst.morseSentence = st.morseSentence := by
  simp only [logStartTime]
  split
  · rfl
  · split
    · split
      · exact changeAudioState_fst_morseSentence st _
      · split
        · exact changeAudioState_fst_morseSentence st _
        · rfl
    · exact changeAudioState_fst_morseSentence st _

theorem validMorse_logEndTime (cfg : Config) (st : MicState) (t : ℚ)
    (h : validMorse st.morseSentence) :
    validMorse (logEndTime cfg st t).fst.morseSentence := by
  simp only [logEndTime, changeAudioState_fst_morseSentence]
  split
  · exact h
  · split
    · -- silent gap longer than wordTime
      split
      · simpa [changeAudioState_fst_morseSentence] using h
      · split
        · simpa [changeAudioState_fst_morseSentence] using h
        · rename_i hlen hlastw
          split
          · rename_i hlastc
            simp only [addCharacter_fst_morseSentence, removeLastLetterFromMorse_morseSentence,
              changeAudioState_fst_morseSentence]
            have hdecomp := sentence_decomp_of_getLast _ _ hlastc
            have h' : validMorse (st.morseSentence.dropLast ++ [characterDelimiter]) := by
              rw [hdecomp] at h; exact h
            exact validMorse_upgrade _ _ _ h' (Or.inl rfl) (Or.inr rfl)
          · rename_i hlastc
            simp only [addCharacter_fst_morseSentence, changeAudioState_fst_morseSentence]
            have hne : st.morseSentence ≠ [] := by
              intro h0
              exact hlen (by rw [h0]; rfl)
            obtain ⟨a, ha⟩ : ∃ a, st.morseSentence.getLast? = some a := by
              cases hx : st.morseSentence.getLast? with
              | none => exact absurd (List.getLast?_eq_none_iff.mp hx) hne
              | some a => exact ⟨a, rfl⟩
            have hsym : morseSymbol a := by
              rcases h.1 a (mem_of_getLast?_eq _ a ha) with hs | hd
              · exact hs
              · rcases hd with rfl | rfl
                · exact absurd ha hlastc
                · exact absurd ha hlastw
            exact validMorse_append_delimiter _ a _ h ha hsym (Or.inr rfl)
    · split
      · -- silent gap longer than characterTime
        split
        · simpa [changeAudioState_fst_morseSentence] using h
        · split
          · simpa [changeAudioState_fst_morseSentence] using h
          · rename_i hlen hlastd
            simp only [addCharacter_fst_morseSentence, changeAudioState_fst_morseSentence]
            have hne : st.morseSentence ≠ [] := by
              intro h0
              exact hlen (by rw [h0]; rfl)
            obtain ⟨a, ha⟩ : ∃ a, st.morseSentence.getLast? = some a := by
              cases hx : st.morseSentence.getLast? with
              | none => exact absurd (List.getLast?_eq_none_iff.mp hx) hne
              | some a => exact ⟨a, rfl⟩
            have hsym : morseSymbol a := by
              rcases h.1 a (mem_of_getLast?_eq _ a ha) with hs | hd
              · exact hs
              · exfalso
                apply hlastd
                rw [ha]
                rcases hd with rfl | rfl <;> simp [Option.elim, isDelimiter]
            exact validMorse_append_delimiter _ a _ h ha hsym (Or.inl rfl)
      · split
        · simpa [changeAudioState_fst_morseSentence] using h
        · split
          · split
            · simp only [addCharacter_fst_morseSentence]
              exact validMorse_append_symbol _ _ h (Or.inr rfl)
            · split
              · simp only [addCharacter_fst_morseSentence]
                exact validMorse_append_symbol _ _ h (Or.inl rfl)
              · exact h
          · exact h

theorem validMorse_onSample (cfg : Config) (st : MicState) (smp : Sample)
    (h : validMorse st.morseSentence) :
    validMorse (onSample cfg st smp).fst.morseSentence := by
  unfold onSample
  split
  · rw [logStartTime_fst_morseSentence]; exact h
  · exact validMorse_logEndTime cfg st smp.time h

theorem validMorse_applyOp (cfg : Config) (st : MicState) (op : Op)
    (h : validMorse st.morseSentence) :
    validMorse (applyOp cfg st op).fst.morseSentence := by
  cases op with
  | sample s => exact validMorse_onSample cfg st s h
  | clear => exact validMorse_nil
  | deleteChar => exact h
  | deleteWrd => exact h

theorem validMorse_runOps (cfg : Config) (st : MicState) (ops : List Op)
    (h : validMorse st.morseSentence) :
    validMorse (runOps cfg st ops).fst.morseSentence := by
  induction ops generalizing st with
  | nil => exact h
  | cons op rest ih => exact ih (applyOp cfg st op).fst (validMorse_applyOp cfg st op h)

/-- C8: starting from the empty sentence, after any sequence of samples
and edit operations the sentence never begins with a delimiter, and every
delimiter in it is immediately preceded by a dot or a dash — so no two
delimiters of any combination are ever adjacent. -/
theorem sentence_delimiter_invariant (cfg : Config) (ops : List Op) :
    (∀ c ∈ (runOps cfg initState ops).fst.morseSentence.head?,
        ¬ (c = characterDelimiter ∨ c = wordDelimiter)) ∧
    List.Chain' (fun a b => (b = characterDelimiter ∨ b = wordDelimiter) →
        (a = '.' ∨ a = '-')) (runOps cfg initState ops).fst.morseSentence := by
  have h := validMorse_runOps cfg initState ops validMorse_nil
  exact ⟨fun c hc => symbol_not_delimiter (h.2.1 c hc), h.2.2⟩

theorem sentence_delimiter_invariant_witness :
    ¬ ('.' = characterDelimiter ∨ '.' = wordDelimiter) :=
  (sentence_delimiter_invariant defaultConfig
      [Op.sample { time := 1, signalPresent := true },
       Op.sample { time := 2, signalPresent := false }]).1 '.'
    (Option.mem_def.mpr (by decide))

/-- C5: the sentence built by any sample sequence from the initial state
never contains two adjacent word delimiters; once the last sentence symbol
is the word delimiter, a further silence sample in the silent state with
offDuration above wordGapTime leaves the sentence unchanged, however many
such samples follow. -/
theorem no_adjacent_word_delimiters :
    (∀ (cfg : Config) (samples : List Sample),
      ¬ [wordDelimiter, wordDelimiter] <:+:
        (run cfg initState samples).fst.morseSentence) ∧
    (∀ (cfg : Config) (st : MicState) (t : ℚ), wasNoSound st →
      st.morseSentence.getLast? = some wordDelimiter →
      t - st.soundStopTime > cfg.wordTime →
      (logEndTime cfg st t).fst.morseSentence = st.morseSentence) := by
  constructor
  · intro cfg samples hinf
    have h := validMorse_runOps cfg initState (samples.map Op.sample) validMorse_nil
    have hc := List.Chain'.infix h.2.2 hinf
    have hguard := (List.chain'_cons.mp hc).1 (Or.inr rfl)
    rcases hguard with h1 | h1 <;> exact absurd h1 (by decide)
  · intro cfg st t hns hlast hoff
    by_cases hdb : t - st.soundStartTime < cfg.debounceTime
    · simp [logEndTime, hdb]
    · have hne : ¬ (st.morseSentence.length = 0) := by
        intro h0
        rw [List.length_eq_zero.mp h0] at hlast
        exact Option.noConfusion hlast
      simp only [logEndTime, changeAudioState_fst_morseSentence]
      rw [if_neg hdb, if_pos ⟨hns, hoff⟩, if_neg hne, if_pos hlast]
      exact changeAudioState_fst_morseSentence st _

theorem no_adjacent_word_delimiters_witness :
    (logEndTime defaultConfig
        { initState with morseSentence := ['-', wordDelimiter] } 4).fst.morseSentence
      = ['-', wordDelimiter] :=
  no_adjacent_word_delimiters.2 defaultConfig
    { initState with morseSentence := ['-', wordDelimiter] } 4 rfl (by decide) (by decide)

/-- C4: a silence sample that passes the debounce guard in the silent
state, with offDuration above wordGapTime and a non-empty sentence ending
in the character delimiter, removes that trailing character delimiter
before appending the word delimiter; on a well-formed sentence the result
therefore ends in exactly one delimiter — the word delimiter, preceded by
a dot or a dash — and never in the character delimiter immediately
followed by the word delimiter. -/
theorem word_delimiter_upgrade (cfg : Config) (st : MicState) (t : ℚ) (s : List Char)
    (hdb : ¬ (t - st.soundStartTime < cfg.debounceTime))
    (hns : wasNoSound st)
    (hoff : t - st.soundStopTime > cfg.wordTime)
    (hsent : st.morseSentence = s ++ [characterDelimiter]) :
    (logEndTime cfg st t).fst.morseSentence = s ++ [wordDelimiter] ∧
    (validMorse st.morseSentence →
      (∀ c ∈ s.getLast?, c = '.' ∨ c = '-') ∧
      ¬ [characterDelimiter, wordDelimiter] <:+
        (logEndTime cfg st t).fst.morseSentence) := by
  have hlen : ¬ (st.morseSentence.length = 0) := by rw [hsent]; simp
  have hlast : st.morseSentence.getLast? = some characterDelimiter := by
    rw [hsent]; exact List.getLast?_concat _
  have hlastw : ¬ (st.morseSentence.getLast? = some wordDelimiter) := by
    rw [hlast]
    intro hx
    exact absurd (Option.some_inj.mp hx) (by decide)
  have hmain : (logEndTime cfg st t).fst.morseSentence = s ++ [wordDelimiter] := by
    simp only [logEndTime, changeAudioState_fst_morseSentence]
    rw [if_neg hdb, if_pos ⟨hns, hoff⟩, if_neg hlen, if_neg hlastw, if_pos hlast]
    rw [addCharacter_fst_morseSentence, removeLastLetterFromMorse_morseSentence,
      changeAudioState_fst_morseSentence, hsent, List.dropLast_concat]
  refine ⟨hmain, fun hv => ?_⟩
  have hbridge : ∀ c ∈ s.getLast?, c = '.' ∨ c = '-' := by
    have hch := hv.2.2
    rw [hsent] at hch
    obtain ⟨_, _, hb⟩ := List.chain'_append.mp hch
    intro c hc
    exact hb c hc characterDelimiter (Option.mem_def.mpr rfl) (Or.inl rfl)
  refine ⟨hbridge, ?_⟩
  rw [hmain]
  rintro ⟨r, hr⟩
  have hr' : (r ++ [characterDelimiter]) ++ [wordDelimiter] = s ++ [wordDelimiter] := by
    simpa using hr
  have hs' : r ++ [characterDelimiter] = s := by
    have := congrArg List.dropLast hr'
    simpa [List.dropLast_concat] using this
  have hlast' : s.getLast? = some characterDelimiter := by
    rw [← hs']; exact List.getLast?_concat _
  rcases hbridge characterDelimiter (Option.mem_def.mpr hlast') with h1 | h1 <;>
    exact absurd h1 (by decide)

theorem word_delimiter_upgrade_witness :
    (logEndTime defaultConfig
        { initState with morseSentence := ['.', characterDelimiter] } 4).fst.morseSentence
      = ['.'] ++ [wordDelimiter] :=
  (word_delimiter_upgrade defaultConfig
      { initState with morseSentence := ['.', characterDelimiter] } 4 ['.']
      (by decide) rfl (by decide) rfl).1

/-- C6: a presence sample arriving within debounceTime of soundStopTime is
ignored entirely: the state (ListeningState, AudioState, soundStartTime,
soundStopTime, sentence) is returned unchanged and no event fires. -/
theorem debounced_presence_ignored (cfg : Config) (st : MicState) (t : ℚ)
    (h : t - st.soundStopTime < cfg.debounceTime) :
    logStartTime cfg st t = (st, []) := by
  simp [logStartTime, h]

theorem debounced_presence_ignored_witness :
    logStartTime defaultConfig initState (1/8) = (initState, []) :=
  debounced_presence_ignored defaultConfig initState (1/8) (by decide)

/-- C10: on a freshly constructed decoder, whose soundStartTime and
soundStopTime are both 0, any sample with timestamp strictly below
debounceTime is ignored with no state change and no event, whether it
carries presence or silence. -/
theorem fresh_state_samples_ignored (cfg : Config) (st : MicState) (t : ℚ) (b : Bool)
    (hstart : st.soundStartTime = 0) (hstop : st.soundStopTime = 0)
    (ht : t < cfg.debounceTime) :
    onSample cfg st { time := t, signalPresent := b } = (st, []) := by
  cases b <;> simp [onSample, logStartTime, logEndTime, hstart, hstop, ht]

theorem fresh_state_samples_ignored_witness :
    onSample defaultConfig initState { time := 1/8, signalPresent := true } = (initState, []) ∧
    onSample defaultConfig initState { time := 1/8, signalPresent := false } = (initState, []) :=
  ⟨fresh_state_samples_ignored defaultConfig initState (1/8) true rfl rfl (by decide),
   fresh_state_samples_ignored defaultConfig initState (1/8) false rfl rfl (by decide)⟩

/-- C1: a silence sample that passes the debounce guard while
ListeningState is Sound records soundStopTime := timestamp, sets
ListeningState to NoSound, and classifies onDuration = timestamp -
soundStartTime: above dashTime it appends exactly one dash, in
(dotTime, dashTime] exactly one dot, and at or below dotTime nothing. -/
theorem sound_to_silence_classification (cfg : Config) (st : MicState) (t : ℚ)
    (hcfg : cfg.dotTime ≤ cfg.dashTime)
    (hdb : ¬ (t - st.soundStartTime < cfg.debounceTime))
    (hs : st.lastState = ListeningState.sound) :
    (logEndTime cfg st t).fst.soundStopTime = t ∧
    (logEndTime cfg st t).fst.lastState = ListeningState.noSound ∧
    (t - st.soundStartTime > cfg.dashTime →
      (logEndTime cfg st t).fst.morseSentence = st.morseSentence ++ ['-']) ∧
    (t - st.soundStartTime ≤ cfg.dashTime → t - st.soundStartTime > cfg.dotTime →
      (logEndTime cfg st t).fst.morseSentence = st.morseSentence ++ ['.']) ∧
    (t - st.soundStartTime ≤ cfg.dotTime →
      (logEndTime cfg st t).fst.morseSentence = st.morseSentence) := by
  have hns : ¬ wasNoSound st := by simp [wasNoSound, hs]
  have hrw : logEndTime cfg st t =
      (if t - st.soundStartTime > cfg.dashTime then
        addCharacter { st with soundStopTime := t, lastState := ListeningState.noSound } '-'
      else if t - st.soundStartTime > cfg.dotTime then
        addCharacter { st with soundStopTime := t, lastState := ListeningState.noSound } '.'
      else ({ st with soundStopTime := t, lastState := ListeningState.noSound }, [])) := by
    simp only [logEndTime, if_neg hdb]
    rw [if_neg (fun h => hns h.1), if_neg (fun h => hns h.1), if_neg hns, if_pos hs]
  rw [hrw]
  split_ifs with h1 h2
  · exact ⟨rfl, rfl, fun _ => rfl,
      fun hle _ => absurd h1 (not_lt.mpr hle),
      fun hle => absurd h1 (not_lt.mpr (le_trans hle hcfg))⟩
  · exact ⟨rfl, rfl, fun hgt => absurd hgt h1,
      fun _ _ => rfl,
      fun hle => absurd h2 (not_lt.mpr hle)⟩
  · exact ⟨rfl, rfl, fun hgt => absurd hgt h1,
      fun _ hgt => absurd hgt h2,
      fun _ => rfl⟩

/-! Distinctness of the states carried by audio-state-change events. -/

theorem audioEventsDistinct_nil : audioEventsDistinct [] := by
  intro c p h
  exact absurd h (List.not_mem_nil _)

theorem audioEventsDistinct_append {l₁ l₂ : List Event}
    (h₁ : audioEventsDistinct l₁) (h₂ : audioEventsDistinct l₂) :
    audioEventsDistinct (l₁ ++ l₂) := by
  intro c p h
  rcases List.mem_append.mp h with h | h
  · exact h₁ c p h
  · exact h₂ c p h

theorem audioEventsDistinct_changeAudioState (st : MicState) (a : AudioState) :
    audioEventsDistinct (changeAudioState st a).snd := by
  unfold changeAudioState
  split
  · exact audioEventsDistinct_nil
  · rename_i hne
    intro c p h
    rw [List.mem_singleton] at h
    injection h with h1 h2
    subst h1; subst h2
    exact fun hcp => hne hcp.symm

theorem audioEventsDistinct_addCharacter (st : MicState) (c : Char) :
    audioEventsDistinct (addCharacter st c).snd := by
  intro x p h
  simp only [addCharacter, emitWordEndEvent, emitCharacterEndEvent] at h
  rcases List.mem_append.mp h with h1 | h1
  · rcases List.mem_append.mp h1 with h2 | h2
    · split at h2
      · rw [List.mem_singleton] at h2; exact Event.noConfusion h2
      · exact absurd h2 (List.not_mem_nil _)
    · split at h2
      · rw [List.mem_singleton] at h2; exact Event.noConfusion h2
      · exact absurd h2 (List.not_mem_nil _)
  · rw [List.mem_singleton] at h1
    exact Event.noConfusion h1

theorem audioEventsDistinct_logStartTime (cfg : Config) (st : MicState) (t : ℚ) :
    audioEventsDistinct (logStartTime cfg st t).snd := by
  simp only [logStartTime]
  split
  · exact audioEventsDistinct_nil
  · split
    · split
      · exact audioEventsDistinct_changeAudioState st _
      · split
        · exact audioEventsDistinct_changeAudioState st _
        · exact audioEventsDistinct_nil
    · exact audioEventsDistinct_changeAudioState st _

theorem audioEventsDistinct_logEndTime (cfg : Config) (st : MicState) (t : ℚ) :
    audioEventsDistinct (logEndTime cfg st t).snd := by
  simp only [logEndTime]
  split
  · exact audioEventsDistinct_nil
  · split
    · split
      · exact audioEventsDistinct_changeAudioState st _
      · split
        · exact audioEventsDistinct_changeAudioState st _
        · exact audioEventsDistinct_append (audioEventsDistinct_changeAudioState st _)
            (audioEventsDistinct_addCharacter _ _)
    · split
      · split
        · exact audioEventsDistinct_changeAudioState st _
        · split
          · exact audioEventsDistinct_changeAudioState st _
          · exact audioEventsDistinct_append (audioEventsDistinct_changeAudioState st _)
              (audioEventsDistinct_addCharacter _ _)
      · split
        · exact audioEventsDistinct_changeAudioState st _
        · split
          · split
            · exact audioEventsDistinct_addCharacter _ _
            · split
              · exact audioEventsDistinct_addCharacter _ _
              · exact audioEventsDistinct_nil
          · exact audioEventsDistinct_nil

theorem audioEventsDistinct_applyOp (cfg : Config) (st : MicState) (op : Op) :
    audioEventsDistinct (applyOp cfg st op).snd := by
  cases op with
  | sample s =>
    show audioEventsDistinct (onSample cfg st s).snd
    unfold onSample
    split
    · exact audioEventsDistinct_logStartTime cfg st s.time
    · exact audioEventsDistinct_logEndTime cfg st s.time
  | clear =>
    intro c p h
    simp only [applyOp, clearSentence] at h
    rw [List.mem_singleton] at h
    exact Event.noConfusion h
  | deleteChar =>
    intro c p h
    simp only [applyOp, deleteCharacter] at h
    rw [List.mem_singleton] at h
    exact Event.noConfusion h
  | deleteWrd =>
    intro c p h
    simp only [applyOp, deleteWord] at h
    rw [List.mem_singleton] at h
    exact Event.noConfusion h

theorem audioEventsDistinct_runOps (cfg : Config) (st : MicState) (ops : List Op) :
    audioEventsDistinct (runOps cfg st ops).snd := by
  induction ops generalizing st with
  | nil => exact audioEventsDistinct_nil
  | cons op rest ih =>
    exact audioEventsDistinct_append (audioEventsDistinct_applyOp cfg st op) (ih _)

/-- C9: changeAudioState called with the state already held stores nothing
and emits nothing, so every audio-state-changed event the decoder ever
emits over any run carries a current state different from its previous
state. -/
theorem audio_state_events_distinct :
    (∀ (st : MicState) (a : AudioState), st.currentAudioState = a →
        changeAudioState st a = (st, [])) ∧
    (∀ (cfg : Config) (st : MicState) (ops : List Op),
        audioEventsDistinct (runOps cfg st ops).snd) := by
  constructor
  · intro st a h
    simp [changeAudioState, h]
  · intro cfg st ops
    exact audioEventsDistinct_runOps cfg st ops

theorem audio_state_events_distinct_witness :
    changeAudioState initState AudioState.notListening = (initState, []) :=
  audio_state_events_distinct.1 initState AudioState.notListening rfl

/-- C2 (source defect): deleteCharacter and deleteWord compute the split
of the sentence and discard the result, so neither mutates the sentence:
the trailing character segment survives deleteCharacter, the trailing word
segment survives deleteWord, and the specified removal never happens. The
no-op on the empty sentence holds trivially. -/
theorem delete_operations_do_not_mutate :
    (∀ st : MicState, (deleteCharacter st).fst = st ∧ (deleteWord st).fst = st) ∧
    (deleteCharacter
        { initState with morseSentence := ['.', '-', characterDelimiter, '.'] }
      ).fst.morseSentence = ['.', '-', characterDelimiter, '.'] ∧
    (deleteWord { initState with morseSentence := ['.', wordDelimiter, '-'] }
      ).fst.morseSentence = ['.', wordDelimiter, '-'] ∧
    getMorseString (deleteCharacter initState).fst = [] :=
  ⟨fun _ => ⟨rfl, rfl⟩, rfl, rfl, rfl⟩

/-- C3 is refuted: processing the example trace from the initial state
does not produce the sentence ". " (the presence samples at t below
debounceTime 0.25 are debounced because soundStopTime starts at 0, so the
registered tone runs only from 0.3 to 0.6 and is too short to classify). -/
theorem example_trace_refutes_claim :
    ¬ ((run exampleConfig initState exampleTrace).fst.morseSentence
          = ['.', characterDelimiter] ∧
       (run exampleConfig initState exampleTrace).snd.countP isCharacterEndEvent = 1) := by
  intro h
  exact absurd h.1 (by decide)

theorem splitOnP_concat_true (p : Char → Bool) (l : List Char) (c : Char)
    (hc : p c = true) :
    (l ++ [c]).splitOnP p = l.splitOnP p ++ [[]] := by
  induction l with
  | nil => simp [List.splitOnP_cons, hc]
  | cons a l ih =>
    rw [List.cons_append]
    simp only [List.splitOnP_cons, ih]
    split
    · rfl
    · cases hsp : l.splitOnP p with
      | nil => exact absurd hsp (List.splitOnP_ne_nil p l)
      | cons x xs => simp [List.modifyHead]

theorem lastSegment_concat_delim (l : List Char) (c : Char) :
    lastSegment ((l ++ [c]).splitOn c) = [] := by
  show ((l ++ [c]).splitOnP (· == c)).getLastD [] = []
  rw [splitOnP_concat_true _ _ _ (by simp)]
  exact List.getLastD_concat _ _ _

theorem addCharacter_characterDelimiter_events (st : MicState) :
    (addCharacter st characterDelimiter).snd =
      [Event.characterEnd [],
       Event.sentenceChange (st.morseSentence ++ [characterDelimiter])
         st.morseSentence] := by
  simp only [addCharacter, emitCharacterEndEvent, emitWordEndEvent]
  rw [if_neg (by decide : ¬ (characterDelimiter = wordDelimiter))]
  simp [lastSegment_concat_delim]

/-- C3 (amended): processing the example trace from the initial state
yields the empty sentence, and no character-end event fires (the emitted
events are exactly the two audio-state changes); moreover, whenever the
character delimiter is appended, the character-end notification carries
the last element of the split of the freshly extended sentence, which is
always the empty segment, not the symbols of the character just ended. -/
theorem example_trace_actual :
    (run exampleConfig initState exampleTrace).fst.morseSentence = [] ∧
    (run exampleConfig initState exampleTrace).snd =
      [Event.audioStateChange AudioState.listeningSound AudioState.notListening,
       Event.audioStateChange AudioState.listeningNoSound AudioState.listeningSound] ∧
    (run exampleConfig initState exampleTrace).snd.countP isCharacterEndEvent = 0 ∧
    (∀ st : MicState, (addCharacter st characterDelimiter).snd =
      [Event.characterEnd [],
       Event.sentenceChange (st.morseSentence ++ [characterDelimiter])
         st.morseSentence]) :=
  ⟨by decide, by decide, by decide, addCharacter_characterDelimiter_events⟩

/-- C7 is refuted: the silence sample at t = 1.5, delivered after the
sample at t = 2, is not rejected — the source has no OrderingError and no
ordering check — nor ignored: it is processed, mutating the state and
emitting an event. -/
theorem out_of_order_sample_processed :
    ¬ (onSample defaultConfig outOfOrderSetup { time := 3/2, signalPresent := false }
        = (outOfOrderSetup, [])) := by decide

/-- C7 (amended): an out-of-order sample is processed by the ordinary
duration arithmetic on a negative gap, not rejected: at t = 1.5 after
soundStopTime = 2 the decoder computes offDuration = -1/2, which fails
every gap threshold, so the sample is handled as a short still-silent gap,
transitioning AudioState to listening:no-sound. -/
theorem out_of_order_sample_negative_gap :
    (3/2 : ℚ) - outOfOrderSetup.soundStopTime < 0 ∧
    onSample defaultConfig outOfOrderSetup { time := 3/2, signalPresent := false }
      = ({ outOfOrderSetup with currentAudioState := AudioState.listeningNoSound },
         [Event.audioStateChange AudioState.listeningNoSound
            AudioState.listeningSound]) :=
  ⟨by decide, by decide⟩

theorem sound_to_silence_classification_witness :
    ((logEndTime defaultConfig
        { initState with lastState := ListeningState.sound } 1).fst.soundStopTime = 1 ∧
     (logEndTime defaultConfig
        { initState with lastState := ListeningState.sound } 1).fst.lastState =
          ListeningState.noSound ∧
     ((1 : ℚ) - 0 > (3/2 : ℚ) →
       (logEndTime defaultConfig
          { initState with lastState := ListeningState.sound } 1).fst.morseSentence =
            [] ++ ['-']) ∧
     ((1 : ℚ) - 0 ≤ (3/2 : ℚ) → (1 : ℚ) - 0 > (1/2 : ℚ) →
       (logEndTime defaultConfig
          { initState with lastState := ListeningState.sound } 1).fst.morseSentence =
            [] ++ ['.']) ∧
     ((1 : ℚ) - 0 ≤ (1/2 : ℚ) →
       (logEndTime defaultConfig
          { initState with lastState := ListeningState.sound } 1).fst.morseSentence = [])) :=
  sound_to_silence_classification defaultConfig
    { initState with lastState := ListeningState.sound } 1
    (by decide) (by decide) rfl

end MicToMorse
